import Mathlib

/-!
Shallow embedding of `src/scoring.py` (Motif-finding).

A matrix in the source is a Python dict keyed by the four bases
`BASES = ["A", "T", "C", "G"]`, each entry an ordered list of numbers.
We embed it as a four-field structure; dict lookup by a character is
`row`, which returns `none` exactly when the key is absent (KeyError).
Python floats are embedded as exact rationals `ℚ`; the log transform
(`math.log`) is embedded over the reals `ℝ`.  Python code that raises
(KeyError, IndexError, AssertionError, ZeroDivisionError, math domain
error) is embedded as an `Option`-returning function that yields `none`.
-/

/-- Matrix over the fixed base alphabet: one ordered row per base,
in the source's order A, T, C, G. -/
structure BaseMatrix (α : Type) where
  A : List α
  T : List α
  C : List α
  G : List α
deriving DecidableEq

abbrev CountMatrix := BaseMatrix Nat

abbrev FreqMatrix := BaseMatrix ℚ

/-- Dict lookup `matrix[c]`: `some` row for the four base keys (in the
source's iteration order), `none` (KeyError) otherwise. -/
def row {α : Type} (m : BaseMatrix α) (c : Char) : Option (List α) :=
  if c = 'A' then some m.A
  else if c = 'T' then some m.T
  else if c = 'C' then some m.C
  else if c = 'G' then some m.G
  else none

/-- The character is one of the four bases (a key of every matrix). -/
def isBase (c : Char) : Prop :=
  c = 'A' ∨ c = 'T' ∨ c = 'C' ∨ c = 'G'

instance (c : Char) : Decidable (isBase c) := by
  unfold isBase; infer_instance

/-- Cell read `matrix[c][i]`: `none` on KeyError or IndexError. -/
def cellAt {α : Type} (m : BaseMatrix α) (c : Char) (i : Nat) : Option α :=
  (row m c).bind (fun l => l.get? i)

/-- Python `count_matrix[base][i] += 1` at one cell of one list:
fails (IndexError) when `i` is out of range. -/
def bumpAt (l : List Nat) (i : Nat) : Option (List Nat) :=
  (l.get? i).map (fun v => l.set i (v + 1))

/-- One inner-loop step of `instances_to_count_matrix`: increment the
count of base `c` at position `i` (KeyError on a non-base character). -/
def addChar (cm : CountMatrix) (c : Char) (i : Nat) : Option CountMatrix :=
  if c = 'A' then (bumpAt cm.A i).map (fun l => { cm with A := l })
  else if c = 'T' then (bumpAt cm.T i).map (fun l => { cm with T := l })
  else if c = 'C' then (bumpAt cm.C i).map (fun l => { cm with C := l })
  else if c = 'G' then (bumpAt cm.G i).map (fun l => { cm with G := l })
  else none

/-- The inner loop of `instances_to_count_matrix` over one instance,
starting at position `i`. -/
def addInstance : CountMatrix → List Char → Nat → Option CountMatrix
  | cm, [], _ => some cm
  | cm, c :: rest, i => (addChar cm c i).bind (fun cm2 => addInstance cm2 rest (i + 1))

/-- The outer loop of `instances_to_count_matrix` over all instances. -/
def buildCount : CountMatrix → List (List Char) → Option CountMatrix
  | cm, [] => some cm
  | cm, inst :: rest => (addInstance cm inst 0).bind (fun cm2 => buildCount cm2 rest)

/-- The all-zero count matrix `{base: [0] * motif_length for base in BASES}`. -/
def zeroCount (motif_length : Nat) : CountMatrix :=
  ⟨List.replicate motif_length 0, List.replicate motif_length 0,
   List.replicate motif_length 0, List.replicate motif_length 0⟩

/-- `instances_to_count_matrix(instances)`: fails on an empty instance
list (IndexError on `instances[0]`), on unequal lengths (the `assert`),
or on a non-base character (KeyError). -/
def instances_to_count_matrix (instances : List (List Char)) : Option CountMatrix :=
  match instances with
  | [] => none
  | inst0 :: _ =>
    if instances.all (fun inst => inst.length == inst0.length) then
      buildCount (zeroCount inst0.length) instances
    else none

/-- `count_to_frequency_matrix(count_matrix)`: the instance count is the
sum over the four bases of the count at position 0 (IndexError on an
empty row); every count is divided by it (ZeroDivisionError when 0). -/
def count_to_frequency_matrix (cm : CountMatrix) : Option FreqMatrix :=
  (cm.A.get? 0).bind fun a0 =>
  (cm.T.get? 0).bind fun t0 =>
  (cm.C.get? 0).bind fun c0 =>
  (cm.G.get? 0).bind fun g0 =>
  let instance_count : Nat := a0 + t0 + c0 + g0
  if instance_count = 0 then none
  else
    some ⟨cm.A.map (fun k : Nat => (k : ℚ) / (instance_count : ℚ)),
          cm.T.map (fun k : Nat => (k : ℚ) / (instance_count : ℚ)),
          cm.C.map (fun k : Nat => (k : ℚ) / (instance_count : ℚ)),
          cm.G.map (fun k : Nat => (k : ℚ) / (instance_count : ℚ))⟩

/-- Shared loop of the three scorers: combine, with `f`, the matrix cells
`matrix[string[i]][i]` for the characters of `s` starting at position `i`,
with `z` for the empty string; `none` as soon as a lookup fails. -/
def scoreAux {α : Type} (f : α → α → α) (z : α) (m : BaseMatrix α) :
    List Char → Nat → Option α
  | [], _ => some z
  | c :: rest, i =>
    (cellAt m c i).bind (fun v => (scoreAux f z m rest (i + 1)).map (fun r => f v r))

/-- `score_sum(string, scoring_matrix)`: the accumulator starts at 1 and
adds the cell `scoring_matrix[base][i]` for each position. -/
def score_sum (s : List Char) (m : FreqMatrix) : Option ℚ :=
  (scoreAux (fun v r => v + r) 0 m s 0).map (fun r => 1 + r)

/-- `score_pssm(string, scoring_matrix)`: the accumulator starts at 1 and
multiplies in the cell `scoring_matrix[base][i]` for each position. -/
def score_pssm (s : List Char) (m : FreqMatrix) : Option ℚ :=
  scoreAux (fun v r => v * r) 1 m s 0

/-- `score_pssm_log(string, log_matrix)`: the accumulator starts at 0 and
adds the cell `log_matrix[base][i]` for each position.  The log matrix is
real-valued, so this scorer is stated over an arbitrary added type. -/
def score_pssm_log {α : Type} [Add α] [Zero α] (s : List Char) (m : BaseMatrix α) :
    Option α :=
  scoreAux (fun v r => v + r) 0 m s 0

/-- Per-position redistribution amount of `add_pseudo_counts`, from the
four frequencies at one position: `diff = (zero_count * low_frequency) /
nonzero_count` (ZeroDivisionError when `nonzero_count` is 0). -/
def posDiff (low a t c g : ℚ) : Option ℚ :=
  let zero_count : Nat := ([a, t, c, g].countP (fun v => decide (v = 0)))
  let nonzero_count : Nat := 4 - zero_count
  if nonzero_count = 0 then none
  else some (((zero_count : ℚ) * low) / (nonzero_count : ℚ))

/-- The `diff` of `add_pseudo_counts` at position `i`, reading the four
frequencies `frequency_matrix[base][i]` (IndexError on a short row). -/
def diffAt (m : FreqMatrix) (low : ℚ) (i : Nat) : Option ℚ :=
  (m.A.get? i).bind fun a =>
  (m.T.get? i).bind fun t =>
  (m.C.get? i).bind fun c =>
  (m.G.get? i).bind fun g =>
  posDiff low a t c g

/-- One output row of `add_pseudo_counts`, cell by cell from position `i`:
a zero cell becomes `low`, a non-zero cell becomes its value minus the
position's `diff`. -/
def pcellAux (m : FreqMatrix) (low : ℚ) : List ℚ → Nat → Option (List ℚ)
  | [], _ => some []
  | v :: rest, i =>
    (diffAt m low i).bind fun d =>
      (pcellAux m low rest (i + 1)).map
        (fun r => (if v = 0 then low else v - d) :: r)

/-- `add_pseudo_counts(frequency_matrix, low_frequency)`.  The source
iterates positions `0 ≤ i < motif_length` (the length of row A) and fills
a fresh `motif_length`-wide matrix; here each output row is produced by
`pcellAux` over the input row truncated to `motif_length`, which visits
the same `diffAt` positions and computes the same cells. -/
def add_pseudo_counts (m : FreqMatrix) (low : ℚ) : Option FreqMatrix :=
  let motif_length := m.A.length
  (pcellAux m low (m.A.take motif_length) 0).bind fun ra =>
  (pcellAux m low (m.T.take motif_length) 0).bind fun rt =>
  (pcellAux m low (m.C.take motif_length) 0).bind fun rc =>
  (pcellAux m low (m.G.take motif_length) 0).bind fun rg =>
  some ⟨ra, rt, rc, rg⟩

/-- One cell of `freq_to_log_matrix`: `-log(x)`, failing (math domain
error) on a non-positive input. -/
noncomputable def logCell (x : ℝ) : Option ℝ :=
  if 0 < x then some (-Real.log x) else none

/-- Map a fallible cell transform over one row. -/
def mapCells {α : Type} (f : α → Option α) : List α → Option (List α)
  | [] => some []
  | x :: rest => (f x).bind fun y => (mapCells f rest).map (fun r => y :: r)

/-- `freq_to_log_matrix(frequency_matrix)`: elementwise `-log`. -/
noncomputable def freq_to_log_matrix (m : BaseMatrix ℝ) : Option (BaseMatrix ℝ) :=
  (mapCells logCell m.A).bind fun la =>
  (mapCells logCell m.T).bind fun lt =>
  (mapCells logCell m.C).bind fun lc =>
  (mapCells logCell m.G).bind fun lg =>
  some ⟨la, lt, lc, lg⟩

/-- Elementwise map over a matrix (used to state the round trip). -/
def mapMatrix {α β : Type} (f : α → β) (m : BaseMatrix α) : BaseMatrix β :=
  ⟨m.A.map f, m.T.map f, m.C.map f, m.G.map f⟩

/-- `get_frequency_matrix(instances)`: count matrix then frequencies. -/
def get_frequency_matrix (instances : List (List Char)) : Option FreqMatrix :=
  (instances_to_count_matrix instances).bind count_to_frequency_matrix

/-- The loop of `get_motifs_percentage`: `score_pssm` every motif against
the matrix.  The source stores the results in a dict keyed by the motif
string; duplicate motifs collapse to one key with the identical score, so
we keep the association list of (motif, score) pairs. -/
def scoreEach (fm : FreqMatrix) : List (List Char) → Option (List (List Char × ℚ))
  | [] => some []
  | w :: rest =>
    (score_pssm w fm).bind fun s =>
      (scoreEach fm rest).map (fun r => (w, s) :: r)

/-- `get_motifs_percentage(motifs)`: train a frequency matrix on the
motifs themselves, then `score_pssm` each motif against it. -/
def get_motifs_percentage (motifs : List (List Char)) : Option (List (List Char × ℚ)) :=
  (get_frequency_matrix motifs).bind fun fm => scoreEach fm motifs

/-- Sum, over the four bases, of the counts at position `i` (0 when a row
is shorter than `i + 1`). -/
def colSum (cm : CountMatrix) (i : Nat) : Nat :=
  cm.A.getD i 0 + cm.T.getD i 0 + cm.C.getD i 0 + cm.G.getD i 0

/-- The count stored for base `c` at position `i` (0 out of range or on a
non-base character). -/
def cellCount (cm : CountMatrix) (c : Char) (i : Nat) : Nat :=
  ((row cm c).getD []).getD i 0

/-- All four rows have length `L` (the shape of every matrix the source
builds). -/
def Shaped {α : Type} (m : BaseMatrix α) (L : Nat) : Prop :=
  m.A.length = L ∧ m.T.length = L ∧ m.C.length = L ∧ m.G.length = L

instance {α : Type} (m : BaseMatrix α) (L : Nat) : Decidable (Shaped m L) := by
  unfold Shaped; infer_instance

/-! ### Basic facts about dict lookup and matrix cells -/

theorem row_A {α : Type} (m : BaseMatrix α) : row m 'A' = some m.A := by
  simp [row]

theorem row_T {α : Type} (m : BaseMatrix α) : row m 'T' = some m.T := by
  simp [row]

theorem row_C {α : Type} (m : BaseMatrix α) : row m 'C' = some m.C := by
  simp [row]

theorem row_G {α : Type} (m : BaseMatrix α) : row m 'G' = some m.G := by
  simp [row]

theorem row_not_base {α : Type} (m : BaseMatrix α) (c : Char) (hc : ¬ isBase c) :
    row m c = none := by
  unfold row isBase at *
  split_ifs with h1 h2 h3 h4 <;> first
    | rfl
    | exact absurd (by tauto) hc

theorem cellAt_none_of_le {α : Type} (m : BaseMatrix α) (L : Nat) (hm : Shaped m L)
    (c : Char) (i : Nat) (h : L ≤ i) : cellAt m c i = none := by
  obtain ⟨hA, hT, hC, hG⟩ := hm
  unfold cellAt row
  split_ifs <;>
    simp [List.get?_eq_getElem?, List.getElem?_eq_none_iff, hA, hT, hC, hG, h]

theorem scoreAux_none_of_long {α : Type} (f : α → α → α) (z : α) (m : BaseMatrix α)
    (L : Nat) (hm : Shaped m L) :
    ∀ (s : List Char) (i : Nat), i ≤ L → L < i + s.length →
      scoreAux f z m s i = none := by
  intro s
  induction s with
  | nil => intro i h1 h2; simp only [List.length_nil] at h2; omega
  | cons c rest ih =>
    intro i h1 h2
    by_cases hi : L ≤ i
    · simp [scoreAux, cellAt_none_of_le m L hm c i hi]
    · have hrest : scoreAux f z m rest (i + 1) = none := by
        apply ih <;> simp at h2 ⊢ <;> omega
      cases hv : cellAt m c i with
      | none => simp [scoreAux, hv]
      | some v => simp [scoreAux, hv, hrest]

theorem scoreAux_none_of_unknown {α : Type} (f : α → α → α) (z : α) (m : BaseMatrix α) :
    ∀ (s : List Char) (i : Nat) (c : Char), c ∈ s → ¬ isBase c →
      scoreAux f z m s i = none := by
  intro s
  induction s with
  | nil => intro i c hc; simp at hc
  | cons c0 rest ih =>
    intro i c hc hbad
    rcases List.mem_cons.mp hc with rfl | htail
    · simp [scoreAux, cellAt, row_not_base m c hbad]
    · have hrest : scoreAux f z m rest (i + 1) = none := ih (i + 1) c htail hbad
      cases hv : cellAt m c0 i with
      | none => simp [scoreAux, hv]
      | some v => simp [scoreAux, hv, hrest]

/-! ### Claims about the scorers -/

/-- C2: the spec claims `score_sum("AT", {A:[1.0,0.0],T:[0.0,0.5],C:[0.0,0.5],
G:[0.0,0.0]})` is 1.5; the code starts its accumulator at 1 and adds
1.0 and 0.5, returning 2.5, so the value 1.5 of the claim (and of the
function's own docstring) is not what the code computes. -/
theorem score_sum_AT_eval :
    score_sum ['A', 'T'] ⟨[1, 0], [0, 1/2], [0, 1/2], [0, 0]⟩ = some (5/2) ∧
    score_sum ['A', 'T'] ⟨[1, 0], [0, 1/2], [0, 1/2], [0, 0]⟩ ≠ some (3/2) := by
  constructor
  · simp [score_sum, scoreAux, cellAt, row]
    norm_num
  · simp [score_sum, scoreAux, cellAt, row]
    norm_num

/-- C4 (amended): for a matrix of motif length L, each of the three scorers
fails when the string is strictly LONGER than L; a strictly shorter string
is scored over its prefix and does not fail. -/
theorem scorers_fail_on_longer_string (m : FreqMatrix) (mlog : BaseMatrix ℝ)
    (L : Nat) (hm : Shaped m L) (hmlog : Shaped mlog L)
    (s : List Char) (hs : L < s.length) :
    score_sum s m = none ∧ score_pssm s m = none ∧ score_pssm_log s mlog = none := by
  refine ⟨?_, ?_, ?_⟩
  · simp [score_sum,
      scoreAux_none_of_long (fun v r => v + r) 0 m L hm s 0 (Nat.zero_le L)
        (by simpa using hs)]
  · simp [score_pssm,
      scoreAux_none_of_long (fun v r => v * r) 1 m L hm s 0 (Nat.zero_le L)
        (by simpa using hs)]
  · simp [score_pssm_log,
      scoreAux_none_of_long (fun v r => v + r) 0 mlog L hmlog s 0 (Nat.zero_le L)
        (by simpa using hs)]

/-- C4 witness: the amended theorem at a concrete length-1 matrix and a
length-2 string. -/
theorem scorers_fail_on_longer_string_witness :
    Shaped (⟨[1], [0], [0], [0]⟩ : FreqMatrix) 1 ∧
    Shaped (⟨[(0 : ℝ)], [0], [0], [0]⟩ : BaseMatrix ℝ) 1 ∧
    1 < List.length ['A', 'A'] ∧
    (score_sum ['A', 'A'] ⟨[1], [0], [0], [0]⟩ = none ∧
     score_pssm ['A', 'A'] ⟨[1], [0], [0], [0]⟩ = none ∧
     score_pssm_log ['A', 'A'] (⟨[(0 : ℝ)], [0], [0], [0]⟩ : BaseMatrix ℝ) = none) :=
  ⟨by decide, ⟨rfl, rfl, rfl, rfl⟩, by decide,
   scorers_fail_on_longer_string ⟨[1], [0], [0], [0]⟩ ⟨[(0 : ℝ)], [0], [0], [0]⟩ 1
     (by decide) ⟨rfl, rfl, rfl, rfl⟩ ['A', 'A'] (by decide)⟩

/-- C4 counterexample: the claim says the scorers fail whenever the string
length differs from the motif length, but a string SHORTER than the motif
length is scored (over its first character) instead of failing: against
the 2-position doctest matrix, the length-1 string "A" yields a score from
every scorer. -/
theorem scorers_short_string_counterexample :
    Shaped (⟨[1, 0], [0, 1/2], [0, 1/2], [0, 0]⟩ : FreqMatrix) 2 ∧
    List.length ['A'] ≠ 2 ∧
    score_sum ['A'] ⟨[1, 0], [0, 1/2], [0, 1/2], [0, 0]⟩ = some 2 ∧
    score_pssm ['A'] ⟨[1, 0], [0, 1/2], [0, 1/2], [0, 0]⟩ = some 1 ∧
    score_pssm_log ['A'] (⟨[1, 0], [0, 1/2], [0, 1/2], [0, 0]⟩ : FreqMatrix) = some 1 := by
  refine ⟨by decide, by decide, ?_, ?_, ?_⟩
  · simp [score_sum, scoreAux, cellAt, row]
    norm_num
  · simp [score_pssm, scoreAux, cellAt, row]
  · simp [score_pssm_log, scoreAux, cellAt, row]

/-- C9: a string containing a character that is not a key of the matrix
(not one of A, T, C, G) makes every scorer fail, never returning a
partial score. -/
theorem scorers_fail_on_unknown_symbol (m : FreqMatrix) (mlog : BaseMatrix ℝ)
    (s : List Char) (c : Char) (hc : c ∈ s) (hbad : ¬ isBase c) :
    score_sum s m = none ∧ score_pssm s m = none ∧ score_pssm_log s mlog = none := by
  refine ⟨?_, ?_, ?_⟩
  · simp [score_sum, scoreAux_none_of_unknown (fun v r => v + r) 0 m s 0 c hc hbad]
  · simp [score_pssm, scoreAux_none_of_unknown (fun v r => v * r) 1 m s 0 c hc hbad]
  · simp [score_pssm_log, scoreAux_none_of_unknown (fun v r => v + r) 0 mlog s 0 c hc hbad]

/-- C9 witness: the string "AN" against the doctest matrix. -/
theorem scorers_fail_on_unknown_symbol_witness :
    'N' ∈ ['A', 'N'] ∧ ¬ isBase 'N' ∧
    (score_sum ['A', 'N'] ⟨[1, 0], [0, 1/2], [0, 1/2], [0, 0]⟩ = none ∧
     score_pssm ['A', 'N'] ⟨[1, 0], [0, 1/2], [0, 1/2], [0, 0]⟩ = none ∧
     score_pssm_log ['A', 'N'] (⟨[(0 : ℝ)], [0], [0], [0]⟩ : BaseMatrix ℝ) = none) :=
  ⟨by decide, by decide,
   scorers_fail_on_unknown_symbol ⟨[1, 0], [0, 1/2], [0, 1/2], [0, 0]⟩
     ⟨[(0 : ℝ)], [0], [0], [0]⟩ ['A', 'N'] 'N' (by decide) (by decide)⟩

/-! ### Facts about add_pseudo_counts -/

theorem get?_of_lt {α : Type} (l : List α) (i : Nat) (d : α) (h : i < l.length) :
    l.get? i = some (l.getD i d) := by
  simp [List.get?_eq_getElem?, List.getD_eq_getElem?_getD, List.getElem?_eq_getElem h]

theorem getD_of_get? {α : Type} (l : List α) (i : Nat) (v d : α)
    (h : l.get? i = some v) : l.getD i d = v := by
  simp only [List.get?_eq_getElem?] at h
  simp [List.getD_eq_getElem?_getD, h]

theorem getD_take {α : Type} (l : List α) (L i : Nat) (d : α) (h : i < L) :
    (l.take L).getD i d = l.getD i d := by
  simp [List.getD_eq_getElem?_getD, List.getElem?_take_of_lt h]

theorem pcellAux_length (m : FreqMatrix) (low : ℚ) :
    ∀ (l : List ℚ) (i : Nat) (out : List ℚ),
      pcellAux m low l i = some out → out.length = l.length := by
  intro l
  induction l with
  | nil =>
    intro i out h
    simp [pcellAux] at h
    simp [h.symm]
  | cons v rest ih =>
    intro i out h
    simp only [pcellAux, Option.bind_eq_some, Option.map_eq_some'] at h
    obtain ⟨d, _, r, hr, hout⟩ := h
    subst hout
    simp [ih (i + 1) r hr]

theorem pcellAux_cell (m : FreqMatrix) (low : ℚ) :
    ∀ (l : List ℚ) (i : Nat) (out : List ℚ),
      pcellAux m low l i = some out →
      ∀ (j : Nat), j < l.length →
        ∃ d, diffAt m low (i + j) = some d ∧
          out.get? j = some (if l.getD j 0 = 0 then low else l.getD j 0 - d) := by
  intro l
  induction l with
  | nil => intro i out _ j hj; simp at hj
  | cons v rest ih =>
    intro i out h j hj
    simp only [pcellAux, Option.bind_eq_some, Option.map_eq_some'] at h
    obtain ⟨d, hd, r, hr, hout⟩ := h
    subst hout
    match j with
    | 0 => exact ⟨d, by simpa using hd, by simp⟩
    | j' + 1 =>
      have hj' : j' < rest.length := by simpa using hj
      obtain ⟨d', hd', hc'⟩ := ih (i + 1) r hr j' hj'
      have harith : i + (j' + 1) = i + 1 + j' := by omega
      exact ⟨d', by rw [harith]; exact hd', by simpa using hc'⟩

theorem pcellAux_id (m : FreqMatrix) (low : ℚ) :
    ∀ (l : List ℚ) (i : Nat),
      (∀ k, k < l.length → diffAt m low (i + k) = some 0) →
      (∀ v ∈ l, v ≠ 0) →
      pcellAux m low l i = some l := by
  intro l
  induction l with
  | nil => intro i _ _; simp [pcellAux]
  | cons v rest ih =>
    intro i hdiff hnz
    have hv : v ≠ 0 := hnz v (by simp)
    have hd0 : diffAt m low i = some 0 := by simpa using hdiff 0 (by simp)
    have hrest : pcellAux m low rest (i + 1) = some rest := by
      apply ih
      · intro k hk
        have := hdiff (k + 1) (by simpa using Nat.succ_lt_succ hk)
        have harith : i + (k + 1) = i + 1 + k := by omega
        rwa [harith] at this
      · intro w hw; exact hnz w (by simp [hw])
    simp [pcellAux, hd0, hrest, hv]

theorem add_pseudo_counts_eq_some (m : FreqMatrix) (low : ℚ) (out : FreqMatrix)
    (h : add_pseudo_counts m low = some out) :
    pcellAux m low (m.A.take m.A.length) 0 = some out.A ∧
    pcellAux m low (m.T.take m.A.length) 0 = some out.T ∧
    pcellAux m low (m.C.take m.A.length) 0 = some out.C ∧
    pcellAux m low (m.G.take m.A.length) 0 = some out.G := by
  simp only [add_pseudo_counts, Option.bind_eq_some, Option.some.injEq] at h
  obtain ⟨ra, hra, rt, hrt, rc, hrc, rg, hrg, hout⟩ := h
  subst hout
  exact ⟨hra, hrt, hrc, hrg⟩

theorem diffAt_eq (m : FreqMatrix) (low : ℚ) (L i : Nat) (hm : Shaped m L)
    (hi : i < L) :
    diffAt m low i =
      posDiff low (m.A.getD i 0) (m.T.getD i 0) (m.C.getD i 0) (m.G.getD i 0) := by
  obtain ⟨hA, hT, hC, hG⟩ := hm
  unfold diffAt
  rw [get?_of_lt m.A i 0 (by omega), get?_of_lt m.T i 0 (by omega),
      get?_of_lt m.C i 0 (by omega), get?_of_lt m.G i 0 (by omega)]
  rfl

theorem posDiff_sum (low a t c g d : ℚ) (hsum : a + t + c + g = 1)
    (hd : posDiff low a t c g = some d) :
    (if a = 0 then low else a - d) + (if t = 0 then low else t - d) +
    (if c = 0 then low else c - d) + (if g = 0 then low else g - d) = 1 := by
  unfold posDiff at hd
  by_cases ha : a = 0 <;> by_cases ht : t = 0 <;>
    by_cases hc : c = 0 <;> by_cases hg : g = 0 <;>
    norm_num [ha, ht, hc, hg] at hd hsum ⊢ <;>
    linarith

theorem getD_mem {α : Type} (l : List α) (i : Nat) (d : α) (h : i < l.length) :
    l.getD i d ∈ l := by
  have hg : l.get? i = some (l.getD i d) := get?_of_lt l i d h
  exact List.getElem?_mem (by simpa [List.get?_eq_getElem?] using hg)

theorem posDiff_no_zero (low a t c g : ℚ) (ha : a ≠ 0) (ht : t ≠ 0)
    (hc : c ≠ 0) (hg : g ≠ 0) : posDiff low a t c g = some 0 := by
  norm_num [posDiff, ha, ht, hc, hg]

/-- C7: applying `add_pseudo_counts` to a frequency matrix with no zero
cell returns the matrix unchanged, for every floor value: each position
has `zero_count = 0`, so `diff = 0` and every cell passes through. -/
theorem add_pseudo_counts_id (m : FreqMatrix) (low : ℚ) (L : Nat) (hm : Shaped m L)
    (hnz : ∀ r ∈ [m.A, m.T, m.C, m.G], ∀ v ∈ r, v ≠ 0) :
    add_pseudo_counts m low = some m := by
  obtain ⟨hA, hT, hC, hG⟩ := hm
  have hdiff : ∀ i, i < L → diffAt m low i = some 0 := by
    intro i hi
    rw [diffAt_eq m low L i ⟨hA, hT, hC, hG⟩ hi]
    exact posDiff_no_zero low _ _ _ _
      (hnz m.A (by simp) _ (getD_mem m.A i 0 (by omega)))
      (hnz m.T (by simp) _ (getD_mem m.T i 0 (by omega)))
      (hnz m.C (by simp) _ (getD_mem m.C i 0 (by omega)))
      (hnz m.G (by simp) _ (getD_mem m.G i 0 (by omega)))
  have hrA : pcellAux m low m.A 0 = some m.A :=
    pcellAux_id m low m.A 0 (fun k hk => by simpa using hdiff k (by omega))
      (hnz m.A (by simp))
  have hrT : pcellAux m low m.T 0 = some m.T :=
    pcellAux_id m low m.T 0 (fun k hk => by simpa using hdiff k (by omega))
      (hnz m.T (by simp))
  have hrC : pcellAux m low m.C 0 = some m.C :=
    pcellAux_id m low m.C 0 (fun k hk => by simpa using hdiff k (by omega))
      (hnz m.C (by simp))
  have hrG : pcellAux m low m.G 0 = some m.G :=
    pcellAux_id m low m.G 0 (fun k hk => by simpa using hdiff k (by omega))
      (hnz m.G (by simp))
  have tA : m.A.take m.A.length = m.A := List.take_length m.A
  have tT : m.T.take m.A.length = m.T := by rw [hA, ← hT]; exact List.take_length m.T
  have tC : m.C.take m.A.length = m.C := by rw [hA, ← hC]; exact List.take_length m.C
  have tG : m.G.take m.A.length = m.G := by rw [hA, ← hG]; exact List.take_length m.G
  simp [add_pseudo_counts, tA, tT, tC, tG, hrA, hrT, hrC, hrG]

/-- C7 witness: a zero-free one-column matrix is returned unchanged. -/
theorem add_pseudo_counts_id_witness :
    Shaped (⟨[2], [3], [4], [5]⟩ : FreqMatrix) 1 ∧
    (∀ r ∈ [([2] : List ℚ), [3], [4], [5]], ∀ v ∈ r, v ≠ 0) ∧
    add_pseudo_counts ⟨[2], [3], [4], [5]⟩ 7 = some ⟨[2], [3], [4], [5]⟩ :=
  ⟨by decide, by decide,
   add_pseudo_counts_id ⟨[2], [3], [4], [5]⟩ 7 1 (by decide) (by decide)⟩

/-- C3: when every position of the input sums to 1 and `add_pseudo_counts`
succeeds, every position of the output sums to 1: at each position the
`nonzero_count` cells each pay `diff = (zero_count * low) / nonzero_count`,
exactly the mass handed to the `zero_count` cells. -/
theorem add_pseudo_counts_preserves_sums (m : FreqMatrix) (low : ℚ) (L : Nat)
    (out : FreqMatrix) (hm : Shaped m L)
    (hsum : ∀ i, i < L →
      m.A.getD i 0 + m.T.getD i 0 + m.C.getD i 0 + m.G.getD i 0 = 1)
    (hout : add_pseudo_counts m low = some out) :
    ∀ i, i < L →
      out.A.getD i 0 + out.T.getD i 0 + out.C.getD i 0 + out.G.getD i 0 = 1 := by
  obtain ⟨hA, hT, hC, hG⟩ := hm
  obtain ⟨pA, pT, pC, pG⟩ := add_pseudo_counts_eq_some m low out hout
  have tA : m.A.take m.A.length = m.A := List.take_length m.A
  have tT : m.T.take m.A.length = m.T := by rw [hA, ← hT]; exact List.take_length m.T
  have tC : m.C.take m.A.length = m.C := by rw [hA, ← hC]; exact List.take_length m.C
  have tG : m.G.take m.A.length = m.G := by rw [hA, ← hG]; exact List.take_length m.G
  rw [tA] at pA; rw [tT] at pT; rw [tC] at pC; rw [tG] at pG
  intro i hi
  obtain ⟨dA, hdA, hcA⟩ := pcellAux_cell m low m.A 0 out.A pA i (by omega)
  obtain ⟨dT, hdT, hcT⟩ := pcellAux_cell m low m.T 0 out.T pT i (by omega)
  obtain ⟨dC, hdC, hcC⟩ := pcellAux_cell m low m.C 0 out.C pC i (by omega)
  obtain ⟨dG, hdG, hcG⟩ := pcellAux_cell m low m.G 0 out.G pG i (by omega)
  have eT : dT = dA := by rw [hdA] at hdT; exact (Option.some.inj hdT).symm
  have eC : dC = dA := by rw [hdA] at hdC; exact (Option.some.inj hdC).symm
  have eG : dG = dA := by rw [hdA] at hdG; exact (Option.some.inj hdG).symm
  rw [eT] at hcT; rw [eC] at hcC; rw [eG] at hcG
  rw [getD_of_get? out.A i _ 0 hcA, getD_of_get? out.T i _ 0 hcT,
      getD_of_get? out.C i _ 0 hcC, getD_of_get? out.G i _ 0 hcG]
  have hdiff : diffAt m low i =
      posDiff low (m.A.getD i 0) (m.T.getD i 0) (m.C.getD i 0) (m.G.getD i 0) :=
    diffAt_eq m low L i ⟨hA, hT, hC, hG⟩ hi
  exact posDiff_sum low _ _ _ _ dA (hsum i hi) (by rw [← hdiff]; simpa using hdA)

/-- C3 witness: a one-column unit-sum matrix with three zero cells keeps
its unit sum after smoothing. -/
theorem add_pseudo_counts_preserves_sums_witness :
    Shaped (⟨[1], [0], [0], [0]⟩ : FreqMatrix) 1 ∧
    (∀ i, i < 1 →
      ([1] : List ℚ).getD i 0 + ([0] : List ℚ).getD i 0 +
      ([0] : List ℚ).getD i 0 + ([0] : List ℚ).getD i 0 = 1) ∧
    add_pseudo_counts ⟨[1], [0], [0], [0]⟩ (1/10) =
      some ⟨[7/10], [1/10], [1/10], [1/10]⟩ ∧
    (∀ i, i < 1 →
      ([7/10] : List ℚ).getD i 0 + ([1/10] : List ℚ).getD i 0 +
      ([1/10] : List ℚ).getD i 0 + ([1/10] : List ℚ).getD i 0 = 1) :=
  ⟨by decide,
   by intro i hi; interval_cases i; norm_num,
   by norm_num [add_pseudo_counts, pcellAux, diffAt, posDiff],
   add_pseudo_counts_preserves_sums ⟨[1], [0], [0], [0]⟩ (1/10) 1
     ⟨[7/10], [1/10], [1/10], [1/10]⟩ (by decide)
     (by intro i hi; interval_cases i; norm_num)
     (by norm_num [add_pseudo_counts, pcellAux, diffAt, posDiff])⟩

/-- C1 (amended): if `add_pseudo_counts` succeeds with a nonzero floor and
no nonzero input cell equals its position's `diff`, then no output cell is
zero: zero cells become `low` and nonzero cells become `cell - diff`.  (A
nonzero cell exactly equal to `diff` does yield an exact output zero, see
the counterexample.) -/
theorem add_pseudo_counts_no_zero (m : FreqMatrix) (low : ℚ) (out : FreqMatrix)
    (hlow : low ≠ 0)
    (hdiff : ∀ i, i < m.A.length → ∀ r ∈ [m.A, m.T, m.C, m.G],
      r.getD i 0 ≠ 0 → diffAt m low i ≠ some (r.getD i 0))
    (hout : add_pseudo_counts m low = some out) :
    ∀ r ∈ [out.A, out.T, out.C, out.G], ∀ v ∈ r, v ≠ 0 := by
  obtain ⟨pA, pT, pC, pG⟩ := add_pseudo_counts_eq_some m low out hout
  have key : ∀ src outr : List ℚ, src ∈ [m.A, m.T, m.C, m.G] →
      pcellAux m low (src.take m.A.length) 0 = some outr →
      ∀ v ∈ outr, v ≠ 0 := by
    intro src outr hsrc hp v hv
    obtain ⟨j, hj⟩ := List.mem_iff_get?.mp hv
    have hjlen : j < outr.length := by
      by_contra hge
      rw [List.get?_eq_getElem?, List.getElem?_eq_none_iff.mpr (by omega)] at hj
      cases hj
    have hlen := pcellAux_length m low _ 0 outr hp
    have hjtake : j < (src.take m.A.length).length := by omega
    have hjA : j < m.A.length := by
      have hle : (src.take m.A.length).length ≤ m.A.length := by
        simp [List.length_take]
      omega
    obtain ⟨d, hd, hc⟩ := pcellAux_cell m low _ 0 outr hp j hjtake
    rw [getD_take src m.A.length j 0 hjA] at hc
    rw [hj] at hc
    have hv' : v = if src.getD j 0 = 0 then low else src.getD j 0 - d :=
      Option.some.inj hc
    by_cases hz : src.getD j 0 = 0
    · rw [hv', if_pos hz]; exact hlow
    · rw [hv', if_neg hz]
      intro hzero
      apply hdiff j hjA src hsrc hz
      rw [sub_eq_zero.mp hzero]
      simpa using hd
  intro r hr
  simp only [List.mem_cons, List.not_mem_nil, or_false] at hr
  rcases hr with rfl | rfl | rfl | rfl
  · exact key m.A out.A (by simp) pA
  · exact key m.T out.T (by simp) pT
  · exact key m.C out.C (by simp) pC
  · exact key m.G out.G (by simp) pG

/-- C1 witness: the amended theorem on a one-column matrix whose nonzero
cells 2 and 3 differ from the diff 1 (floor 1): the output has no zero. -/
theorem add_pseudo_counts_no_zero_witness :
    (1 : ℚ) ≠ 0 ∧
    (∀ i, i < List.length ([2] : List ℚ) →
      ∀ r ∈ [([2] : List ℚ), [3], [0], [0]], r.getD i 0 ≠ 0 →
        diffAt ⟨[2], [3], [0], [0]⟩ 1 i ≠ some (r.getD i 0)) ∧
    add_pseudo_counts ⟨[2], [3], [0], [0]⟩ 1 = some ⟨[1], [2], [1], [1]⟩ ∧
    (∀ r ∈ [(⟨[1], [2], [1], [1]⟩ : FreqMatrix).A,
            (⟨[1], [2], [1], [1]⟩ : FreqMatrix).T,
            (⟨[1], [2], [1], [1]⟩ : FreqMatrix).C,
            (⟨[1], [2], [1], [1]⟩ : FreqMatrix).G], ∀ v ∈ r, v ≠ 0) :=
  ⟨by norm_num,
   by
    intro i hi r hr h0
    simp only [List.length_cons, List.length_nil] at hi
    have hi0 : i = 0 := by omega
    subst hi0
    fin_cases hr <;> norm_num [diffAt, posDiff] at h0 ⊢,
   by norm_num [add_pseudo_counts, pcellAux, diffAt, posDiff],
   add_pseudo_counts_no_zero ⟨[2], [3], [0], [0]⟩ 1 ⟨[1], [2], [1], [1]⟩
     (by norm_num)
     (by
       intro i hi r hr h0
       simp only [List.length_cons, List.length_nil] at hi
       have hi0 : i = 0 := by omega
       subst hi0
       fin_cases hr <;> norm_num [diffAt, posDiff] at h0 ⊢)
     (by norm_num [add_pseudo_counts, pcellAux, diffAt, posDiff])⟩

/-- C1 counterexample: with the default floor 0.1, the input column
(0.1, 0.9, 0, 0) makes `diff = (2 * 0.1) / 2 = 0.1`, so the nonzero cell
0.1 becomes exactly 0 in the returned matrix: `add_pseudo_counts` can
succeed yet return a matrix with a cell that is exactly 0. -/
theorem add_pseudo_counts_zero_cell_counterexample :
    add_pseudo_counts ⟨[1/10], [9/10], [0], [0]⟩ (1/10) =
      some ⟨[0], [4/5], [1/10], [1/10]⟩ ∧
    (0 : ℚ) ∈ (⟨[0], [4/5], [1/10], [1/10]⟩ : FreqMatrix).A := by
  constructor
  · norm_num [add_pseudo_counts, pcellAux, diffAt, posDiff]
  · simp

/-! ### Claims about count_to_frequency_matrix -/

/-- C5 (amended): `count_to_frequency_matrix` fails when the four counts
at position 0 sum to 0 (the instance count is derived from position 0
only); a zero column elsewhere does not cause failure, see the
counterexample. -/
theorem count_to_frequency_fails_on_zero_start (cm : CountMatrix)
    (hsum : cm.A.getD 0 0 + cm.T.getD 0 0 + cm.C.getD 0 0 + cm.G.getD 0 0 = 0) :
    count_to_frequency_matrix cm = none := by
  unfold count_to_frequency_matrix
  cases hA : cm.A.get? 0 with
  | none => simp
  | some a0 =>
    cases hT : cm.T.get? 0 with
    | none => simp
    | some t0 =>
      cases hC : cm.C.get? 0 with
      | none => simp
      | some c0 =>
        cases hG : cm.G.get? 0 with
        | none => simp
        | some g0 =>
          rw [getD_of_get? cm.A 0 a0 0 hA, getD_of_get? cm.T 0 t0 0 hT,
              getD_of_get? cm.C 0 c0 0 hC, getD_of_get? cm.G 0 g0 0 hG] at hsum
          simp [hsum]
          omega

/-- C5 witness: the all-zero one-column count matrix fails. -/
theorem count_to_frequency_fails_on_zero_start_witness :
    (([0] : List Nat).getD 0 0 + ([0] : List Nat).getD 0 0 +
     ([0] : List Nat).getD 0 0 + ([0] : List Nat).getD 0 0 = 0) ∧
    count_to_frequency_matrix ⟨[0], [0], [0], [0]⟩ = none :=
  ⟨by decide, count_to_frequency_fails_on_zero_start ⟨[0], [0], [0], [0]⟩ (by decide)⟩

/-- C5 counterexample: the count matrix {A:[1,0], T:[0,0], C:[0,0],
G:[0,0]} has a position (index 1) whose four counts sum to 0, yet
`count_to_frequency_matrix` succeeds, because the divisor is taken from
position 0 alone. -/
theorem count_to_frequency_zero_position_counterexample :
    colSum ⟨[1, 0], [0, 0], [0, 0], [0, 0]⟩ 1 = 0 ∧
    count_to_frequency_matrix ⟨[1, 0], [0, 0], [0, 0], [0, 0]⟩ =
      some ⟨[1, 0], [0, 0], [0, 0], [0, 0]⟩ := by
  constructor
  · decide
  · norm_num [count_to_frequency_matrix]

/-! ### The count-matrix construction -/

theorem lt_of_get?_some {α : Type} (l : List α) (i : Nat) (v : α)
    (h : l.get? i = some v) : i < l.length := by
  by_contra hge
  rw [List.get?_eq_getElem?, List.getElem?_eq_none_iff.mpr (by omega)] at h
  cases h

theorem getD_set_self (l : List Nat) (i : Nat) (a d : Nat) (h : i < l.length) :
    (l.set i a).getD i d = a := by
  simp [List.getD_eq_getElem?_getD, List.getElem?_set_self h]

theorem getD_set_ne (l : List Nat) (i j : Nat) (a d : Nat) (h : i ≠ j) :
    (l.set i a).getD j d = l.getD j d := by
  simp [List.getD_eq_getElem?_getD, List.getElem?_set_ne h]

theorem cellCount_A (cm : CountMatrix) (i : Nat) : cellCount cm 'A' i = cm.A.getD i 0 := by
  simp [cellCount, row_A]

theorem cellCount_T (cm : CountMatrix) (i : Nat) : cellCount cm 'T' i = cm.T.getD i 0 := by
  simp [cellCount, row_T]

theorem cellCount_C (cm : CountMatrix) (i : Nat) : cellCount cm 'C' i = cm.C.getD i 0 := by
  simp [cellCount, row_C]

theorem cellCount_G (cm : CountMatrix) (i : Nat) : cellCount cm 'G' i = cm.G.getD i 0 := by
  simp [cellCount, row_G]

theorem addChar_eq_some (cm : CountMatrix) (c : Char) (i : Nat) (cm' : CountMatrix)
    (h : addChar cm c i = some cm') :
    (c = 'A' ∧ ∃ v, cm.A.get? i = some v ∧ cm' = { cm with A := cm.A.set i (v + 1) }) ∨
    (c = 'T' ∧ ∃ v, cm.T.get? i = some v ∧ cm' = { cm with T := cm.T.set i (v + 1) }) ∨
    (c = 'C' ∧ ∃ v, cm.C.get? i = some v ∧ cm' = { cm with C := cm.C.set i (v + 1) }) ∨
    (c = 'G' ∧ ∃ v, cm.G.get? i = some v ∧ cm' = { cm with G := cm.G.set i (v + 1) }) := by
  unfold addChar bumpAt at h
  split_ifs at h with h1 h2 h3 h4
  · simp only [Option.map_eq_some'] at h
    obtain ⟨lv, ⟨v, hv, hlv⟩, hcm⟩ := h
    exact Or.inl ⟨h1, v, hv, by rw [← hcm, ← hlv]⟩
  · simp only [Option.map_eq_some'] at h
    obtain ⟨lv, ⟨v, hv, hlv⟩, hcm⟩ := h
    exact Or.inr (Or.inl ⟨h2, v, hv, by rw [← hcm, ← hlv]⟩)
  · simp only [Option.map_eq_some'] at h
    obtain ⟨lv, ⟨v, hv, hlv⟩, hcm⟩ := h
    exact Or.inr (Or.inr (Or.inl ⟨h3, v, hv, by rw [← hcm, ← hlv]⟩))
  · simp only [Option.map_eq_some'] at h
    obtain ⟨lv, ⟨v, hv, hlv⟩, hcm⟩ := h
    exact Or.inr (Or.inr (Or.inr ⟨h4, v, hv, by rw [← hcm, ← hlv]⟩))

theorem row_update_A {α : Type} (cm : BaseMatrix α) (l : List α) (c : Char)
    (h : c ≠ 'A') : row { cm with A := l } c = row cm c := by
  simp [row, h]

theorem row_update_T {α : Type} (cm : BaseMatrix α) (l : List α) (c : Char)
    (h : c ≠ 'T') : row { cm with T := l } c = row cm c := by
  simp only [row]
  split_ifs <;> rfl

theorem row_update_C {α : Type} (cm : BaseMatrix α) (l : List α) (c : Char)
    (h : c ≠ 'C') : row { cm with C := l } c = row cm c := by
  simp only [row]
  split_ifs <;> rfl

theorem row_update_G {α : Type} (cm : BaseMatrix α) (l : List α) (c : Char)
    (h : c ≠ 'G') : row { cm with G := l } c = row cm c := by
  simp only [row]
  split_ifs <;> rfl

theorem addChar_shape (cm : CountMatrix) (c : Char) (i : Nat) (cm' : CountMatrix)
    (L : Nat) (h : addChar cm c i = some cm') (hm : Shaped cm L) : Shaped cm' L := by
  rcases addChar_eq_some cm c i cm' h with ⟨_, v, hv, rfl⟩ | ⟨_, v, hv, rfl⟩ |
    ⟨_, v, hv, rfl⟩ | ⟨_, v, hv, rfl⟩ <;> simpa [Shaped] using hm

theorem addChar_cell (cm : CountMatrix) (c : Char) (i : Nat) (cm' : CountMatrix)
    (h : addChar cm c i = some cm') (c' : Char) (j : Nat) :
    cellCount cm' c' j = cellCount cm c' j + (if c' = c ∧ j = i then 1 else 0) := by
  rcases addChar_eq_some cm c i cm' h with ⟨rfl, v, hv, rfl⟩ | ⟨rfl, v, hv, rfl⟩ |
    ⟨rfl, v, hv, rfl⟩ | ⟨rfl, v, hv, rfl⟩
  · have hlt : i < cm.A.length := lt_of_get?_some _ _ _ hv
    by_cases hA' : c' = 'A'
    · subst hA'
      rw [cellCount_A, cellCount_A]
      by_cases hj : j = i
      · subst hj
        rw [show ((⟨cm.A.set j (v + 1), cm.T, cm.C, cm.G⟩ : CountMatrix).A) =
              cm.A.set j (v + 1) from rfl]
        rw [getD_set_self cm.A j (v + 1) 0 hlt, getD_of_get? cm.A j v 0 hv]
        simp
      · rw [show ((⟨cm.A.set i (v + 1), cm.T, cm.C, cm.G⟩ : CountMatrix).A) =
              cm.A.set i (v + 1) from rfl]
        rw [getD_set_ne cm.A i j (v + 1) 0 (fun he => hj he.symm)]
        simp [hj]
    · unfold cellCount
      rw [row_update_A cm (cm.A.set i (v + 1)) c' hA']
      simp [hA']
  · have hlt : i < cm.T.length := lt_of_get?_some _ _ _ hv
    by_cases hT' : c' = 'T'
    · subst hT'
      rw [cellCount_T, cellCount_T]
      by_cases hj : j = i
      · subst hj
        rw [show ((⟨cm.A, cm.T.set j (v + 1), cm.C, cm.G⟩ : CountMatrix).T) =
              cm.T.set j (v + 1) from rfl]
        rw [getD_set_self cm.T j (v + 1) 0 hlt, getD_of_get? cm.T j v 0 hv]
        simp
      · rw [show ((⟨cm.A, cm.T.set i (v + 1), cm.C, cm.G⟩ : CountMatrix).T) =
              cm.T.set i (v + 1) from rfl]
        rw [getD_set_ne cm.T i j (v + 1) 0 (fun he => hj he.symm)]
        simp [hj]
    · unfold cellCount
      rw [row_update_T cm (cm.T.set i (v + 1)) c' hT']
      simp [hT']
  · have hlt : i < cm.C.length := lt_of_get?_some _ _ _ hv
    by_cases hC' : c' = 'C'
    · subst hC'
      rw [cellCount_C, cellCount_C]
      by_cases hj : j = i
      · subst hj
        rw [show ((⟨cm.A, cm.T, cm.C.set j (v + 1), cm.G⟩ : CountMatrix).C) =
              cm.C.set j (v + 1) from rfl]
        rw [getD_set_self cm.C j (v + 1) 0 hlt, getD_of_get? cm.C j v 0 hv]
        simp
      · rw [show ((⟨cm.A, cm.T, cm.C.set i (v + 1), cm.G⟩ : CountMatrix).C) =
              cm.C.set i (v + 1) from rfl]
        rw [getD_set_ne cm.C i j (v + 1) 0 (fun he => hj he.symm)]
        simp [hj]
    · unfold cellCount
      rw [row_update_C cm (cm.C.set i (v + 1)) c' hC']
      simp [hC']
  · have hlt : i < cm.G.length := lt_of_get?_some _ _ _ hv
    by_cases hG' : c' = 'G'
    · subst hG'
      rw [cellCount_G, cellCount_G]
      by_cases hj : j = i
      · subst hj
        rw [show ((⟨cm.A, cm.T, cm.C, cm.G.set j (v + 1)⟩ : CountMatrix).G) =
              cm.G.set j (v + 1) from rfl]
        rw [getD_set_self cm.G j (v + 1) 0 hlt, getD_of_get? cm.G j v 0 hv]
        simp
      · rw [show ((⟨cm.A, cm.T, cm.C, cm.G.set i (v + 1)⟩ : CountMatrix).G) =
              cm.G.set i (v + 1) from rfl]
        rw [getD_set_ne cm.G i j (v + 1) 0 (fun he => hj he.symm)]
        simp [hj]
    · unfold cellCount
      rw [row_update_G cm (cm.G.set i (v + 1)) c' hG']
      simp [hG']

theorem addChar_colSum (cm : CountMatrix) (c : Char) (i : Nat) (cm' : CountMatrix)
    (h : addChar cm c i = some cm') (j : Nat) :
    colSum cm' j = colSum cm j + (if j = i then 1 else 0) := by
  rcases addChar_eq_some cm c i cm' h with ⟨_, v, hv, rfl⟩ | ⟨_, v, hv, rfl⟩ |
    ⟨_, v, hv, rfl⟩ | ⟨_, v, hv, rfl⟩
  · have hlt : i < cm.A.length := lt_of_get?_some _ _ _ hv
    unfold colSum
    by_cases hj : j = i
    · subst hj
      rw [show ((⟨cm.A.set j (v + 1), cm.T, cm.C, cm.G⟩ : CountMatrix).A) =
            cm.A.set j (v + 1) from rfl,
          getD_set_self cm.A j (v + 1) 0 hlt, getD_of_get? cm.A j v 0 hv]
      simp; omega
    · rw [show ((⟨cm.A.set i (v + 1), cm.T, cm.C, cm.G⟩ : CountMatrix).A) =
            cm.A.set i (v + 1) from rfl,
          getD_set_ne cm.A i j (v + 1) 0 (fun he => hj he.symm)]
      simp [hj]
  · have hlt : i < cm.T.length := lt_of_get?_some _ _ _ hv
    unfold colSum
    by_cases hj : j = i
    · subst hj
      rw [show ((⟨cm.A, cm.T.set j (v + 1), cm.C, cm.G⟩ : CountMatrix).T) =
            cm.T.set j (v + 1) from rfl,
          getD_set_self cm.T j (v + 1) 0 hlt, getD_of_get? cm.T j v 0 hv]
      simp; omega
    · rw [show ((⟨cm.A, cm.T.set i (v + 1), cm.C, cm.G⟩ : CountMatrix).T) =
            cm.T.set i (v + 1) from rfl,
          getD_set_ne cm.T i j (v + 1) 0 (fun he => hj he.symm)]
      simp [hj]
  · have hlt : i < cm.C.length := lt_of_get?_some _ _ _ hv
    unfold colSum
    by_cases hj : j = i
    · subst hj
      rw [show ((⟨cm.A, cm.T, cm.C.set j (v + 1), cm.G⟩ : CountMatrix).C) =
            cm.C.set j (v + 1) from rfl,
          getD_set_self cm.C j (v + 1) 0 hlt, getD_of_get? cm.C j v 0 hv]
      simp; omega
    · rw [show ((⟨cm.A, cm.T, cm.C.set i (v + 1), cm.G⟩ : CountMatrix).C) =
            cm.C.set i (v + 1) from rfl,
          getD_set_ne cm.C i j (v + 1) 0 (fun he => hj he.symm)]
      simp [hj]
  · have hlt : i < cm.G.length := lt_of_get?_some _ _ _ hv
    unfold colSum
    by_cases hj : j = i
    · subst hj
      rw [show ((⟨cm.A, cm.T, cm.C, cm.G.set j (v + 1)⟩ : CountMatrix).G) =
            cm.G.set j (v + 1) from rfl,
          getD_set_self cm.G j (v + 1) 0 hlt, getD_of_get? cm.G j v 0 hv]
      simp; omega
    · rw [show ((⟨cm.A, cm.T, cm.C, cm.G.set i (v + 1)⟩ : CountMatrix).G) =
            cm.G.set i (v + 1) from rfl,
          getD_set_ne cm.G i j (v + 1) 0 (fun he => hj he.symm)]
      simp [hj]

theorem addChar_cell_le (cm : CountMatrix) (c : Char) (i : Nat) (cm' : CountMatrix)
    (h : addChar cm c i = some cm') (c' : Char) (j : Nat) :
    cellCount cm c' j ≤ cellCount cm' c' j := by
  rw [addChar_cell cm c i cm' h c' j]
  split_ifs <;> omega

theorem addChar_bump (cm : CountMatrix) (c : Char) (i : Nat) (cm' : CountMatrix)
    (h : addChar cm c i = some cm') :
    cellCount cm' c i = cellCount cm c i + 1 := by
  rw [addChar_cell cm c i cm' h c i, if_pos ⟨rfl, rfl⟩]

theorem addChar_some (cm : CountMatrix) (c : Char) (i : Nat) (L : Nat)
    (hc : isBase c) (hm : Shaped cm L) (hi : i < L) :
    ∃ cm2, addChar cm c i = some cm2 := by
  obtain ⟨h1, h2, h3, h4⟩ := hm
  rcases hc with rfl | rfl | rfl | rfl
  · simp [addChar, bumpAt]
    exact ⟨_, cm.A.getD i 0,
      (by rw [← List.get?_eq_getElem?]; exact get?_of_lt cm.A i 0 (by omega)), rfl⟩
  · simp [addChar, bumpAt]
    exact ⟨_, cm.T.getD i 0,
      (by rw [← List.get?_eq_getElem?]; exact get?_of_lt cm.T i 0 (by omega)), rfl⟩
  · simp [addChar, bumpAt]
    exact ⟨_, cm.C.getD i 0,
      (by rw [← List.get?_eq_getElem?]; exact get?_of_lt cm.C i 0 (by omega)), rfl⟩
  · simp [addChar, bumpAt]
    exact ⟨_, cm.G.getD i 0,
      (by rw [← List.get?_eq_getElem?]; exact get?_of_lt cm.G i 0 (by omega)), rfl⟩

theorem addInstance_shape (L : Nat) :
    ∀ (s : List Char) (cm : CountMatrix) (i : Nat) (cm' : CountMatrix),
      addInstance cm s i = some cm' → Shaped cm L → Shaped cm' L := by
  intro s
  induction s with
  | nil =>
    intro cm i cm' h hm
    simp only [addInstance, Option.some.injEq] at h
    rwa [← h]
  | cons c rest ih =>
    intro cm i cm' h hm
    simp only [addInstance, Option.bind_eq_some] at h
    obtain ⟨cm2, h1, h2⟩ := h
    exact ih cm2 (i + 1) cm' h2 (addChar_shape cm c i cm2 L h1 hm)

theorem addInstance_colSum :
    ∀ (s : List Char) (cm : CountMatrix) (i : Nat) (cm' : CountMatrix),
      addInstance cm s i = some cm' →
      ∀ j, colSum cm' j = colSum cm j + (if i ≤ j ∧ j < i + s.length then 1 else 0) := by
  intro s
  induction s with
  | nil =>
    intro cm i cm' h j
    simp only [addInstance, Option.some.injEq] at h
    rw [← h]
    simp only [List.length_nil]
    split_ifs with hc
    · omega
    · rfl
  | cons c rest ih =>
    intro cm i cm' h j
    simp only [addInstance, Option.bind_eq_some] at h
    obtain ⟨cm2, h1, h2⟩ := h
    rw [ih cm2 (i + 1) cm' h2 j, addChar_colSum cm c i cm2 h1 j]
    simp only [List.length_cons]
    split_ifs <;> omega

theorem addInstance_le :
    ∀ (s : List Char) (cm : CountMatrix) (i : Nat) (cm' : CountMatrix),
      addInstance cm s i = some cm' →
      ∀ (c' : Char) (j : Nat), cellCount cm c' j ≤ cellCount cm' c' j := by
  intro s
  induction s with
  | nil =>
    intro cm i cm' h c' j
    simp only [addInstance, Option.some.injEq] at h
    rw [← h]
  | cons c rest ih =>
    intro cm i cm' h c' j
    simp only [addInstance, Option.bind_eq_some] at h
    obtain ⟨cm2, h1, h2⟩ := h
    exact le_trans (addChar_cell_le cm c i cm2 h1 c' j) (ih cm2 (i + 1) cm' h2 c' j)

theorem addInstance_hit :
    ∀ (s : List Char) (cm : CountMatrix) (i : Nat) (cm' : CountMatrix),
      addInstance cm s i = some cm' →
      ∀ (k : Nat) (hk : k < s.length),
        1 ≤ cellCount cm' (s.get ⟨k, hk⟩) (i + k) := by
  intro s
  induction s with
  | nil => intro cm i cm' h k hk; simp at hk
  | cons c rest ih =>
    intro cm i cm' h k hk
    simp only [addInstance, Option.bind_eq_some] at h
    obtain ⟨cm2, h1, h2⟩ := h
    cases k with
    | zero =>
      have hb := addChar_bump cm c i cm2 h1
      have hle := addInstance_le rest cm2 (i + 1) cm' h2 c i
      have hgc : ((c :: rest).get ⟨0, hk⟩) = c := rfl
      rw [hgc, Nat.add_zero]
      omega
    | succ k' =>
      have hk' : k' < rest.length := by simpa using hk
      have := ih cm2 (i + 1) cm' h2 k' hk'
      have harith : i + (k' + 1) = i + 1 + k' := by omega
      rw [harith]
      simpa using this

theorem addInstance_some (L : Nat) :
    ∀ (s : List Char) (cm : CountMatrix) (i : Nat),
      Shaped cm L → (∀ c ∈ s, isBase c) → i + s.length ≤ L →
      ∃ cm', addInstance cm s i = some cm' := by
  intro s
  induction s with
  | nil => intro cm i _ _ _; exact ⟨cm, rfl⟩
  | cons c rest ih =>
    intro cm i hm hb hle
    obtain ⟨cm2, h1⟩ := addChar_some cm c i L (hb c (by simp)) hm
      (by simp at hle; omega)
    obtain ⟨cm', h2⟩ := ih cm2 (i + 1) (addChar_shape cm c i cm2 L h1 hm)
      (fun c2 hc2 => hb c2 (by simp [hc2])) (by simp at hle; omega)
    exact ⟨cm', by simp [addInstance, h1, h2]⟩

theorem buildCount_shape (L : Nat) :
    ∀ (l : List (List Char)) (cm : CountMatrix) (cm' : CountMatrix),
      buildCount cm l = some cm' → Shaped cm L → Shaped cm' L := by
  intro l
  induction l with
  | nil =>
    intro cm cm' h hm
    simp only [buildCount, Option.some.injEq] at h
    rwa [← h]
  | cons w rest ih =>
    intro cm cm' h hm
    simp only [buildCount, Option.bind_eq_some] at h
    obtain ⟨cm2, h1, h2⟩ := h
    exact ih cm2 cm' h2 (addInstance_shape L w cm 0 cm2 h1 hm)

theorem buildCount_colSum (L : Nat) :
    ∀ (l : List (List Char)) (cm : CountMatrix) (cm' : CountMatrix),
      buildCount cm l = some cm' → (∀ w ∈ l, w.length = L) →
      ∀ j, j < L → colSum cm' j = colSum cm j + l.length := by
  intro l
  induction l with
  | nil =>
    intro cm cm' h _ j _
    simp only [buildCount, Option.some.injEq] at h
    rw [← h]
    simp
  | cons w rest ih =>
    intro cm cm' h hlen j hj
    simp only [buildCount, Option.bind_eq_some] at h
    obtain ⟨cm2, h1, h2⟩ := h
    have e1 := addInstance_colSum w cm 0 cm2 h1 j
    have hw : w.length = L := hlen w (by simp)
    rw [if_pos (by omega : 0 ≤ j ∧ j < 0 + w.length)] at e1
    have e2 := ih cm2 cm' h2 (fun w2 hw2 => hlen w2 (by simp [hw2])) j hj
    rw [e2, e1]
    simp only [List.length_cons]
    omega

theorem buildCount_le :
    ∀ (l : List (List Char)) (cm : CountMatrix) (cm' : CountMatrix),
      buildCount cm l = some cm' →
      ∀ (c' : Char) (j : Nat), cellCount cm c' j ≤ cellCount cm' c' j := by
  intro l
  induction l with
  | nil =>
    intro cm cm' h c' j
    simp only [buildCount, Option.some.injEq] at h
    rw [← h]
  | cons w rest ih =>
    intro cm cm' h c' j
    simp only [buildCount, Option.bind_eq_some] at h
    obtain ⟨cm2, h1, h2⟩ := h
    exact le_trans (addInstance_le w cm 0 cm2 h1 c' j) (ih cm2 cm' h2 c' j)

theorem buildCount_hit :
    ∀ (l : List (List Char)) (cm : CountMatrix) (cm' : CountMatrix),
      buildCount cm l = some cm' →
      ∀ w ∈ l, ∀ (k : Nat) (hk : k < w.length),
        1 ≤ cellCount cm' (w.get ⟨k, hk⟩) k := by
  intro l
  induction l with
  | nil => intro cm cm' _ w hw; simp at hw
  | cons w0 rest ih =>
    intro cm cm' h w hw k hk
    simp only [buildCount, Option.bind_eq_some] at h
    obtain ⟨cm2, h1, h2⟩ := h
    rcases List.mem_cons.mp hw with rfl | htail
    · have hhit := addInstance_hit w cm 0 cm2 h1 k hk
      have hle := buildCount_le rest cm2 cm' h2 (w.get ⟨k, hk⟩) k
      simp only [Nat.zero_add] at hhit
      omega
    · exact ih cm2 cm' h2 w htail k hk

theorem buildCount_some (L : Nat) :
    ∀ (l : List (List Char)) (cm : CountMatrix),
      Shaped cm L → (∀ w ∈ l, w.length = L) → (∀ w ∈ l, ∀ c ∈ w, isBase c) →
      ∃ cm', buildCount cm l = some cm' := by
  intro l
  induction l with
  | nil => intro cm _ _ _; exact ⟨cm, rfl⟩
  | cons w rest ih =>
    intro cm hm hlen hb
    obtain ⟨cm2, h1⟩ := addInstance_some L w cm 0 hm (hb w (by simp))
      (by rw [hlen w (by simp)]; omega)
    obtain ⟨cm', h2⟩ := ih cm2 (addInstance_shape L w cm 0 cm2 h1 hm)
      (fun w2 hw2 => hlen w2 (by simp [hw2]))
      (fun w2 hw2 => hb w2 (by simp [hw2]))
    exact ⟨cm', by simp [buildCount, h1, h2]⟩

theorem zeroCount_shape (L : Nat) : Shaped (zeroCount L) L := by
  simp [Shaped, zeroCount]

theorem zeroCount_colSum (L j : Nat) : colSum (zeroCount L) j = 0 := by
  simp only [colSum, zeroCount, List.getD_eq_getElem?_getD, List.getElem?_replicate]
  split_ifs <;> simp

theorem instances_to_count_matrix_eq (instances : List (List Char)) (L : Nat)
    (hne : instances ≠ []) (hlen : ∀ w ∈ instances, w.length = L) :
    instances_to_count_matrix instances = buildCount (zeroCount L) instances := by
  obtain ⟨m0, rest, rfl⟩ := List.exists_cons_of_ne_nil hne
  have hL0 : m0.length = L := hlen m0 (by simp)
  have hcond : (m0 :: rest).all (fun inst => inst.length == m0.length) = true := by
    simp only [List.all_eq_true, beq_iff_eq]
    intro w hw
    rw [hlen w hw, hL0]
  simp only [instances_to_count_matrix, hL0]
  have hcond2 : ((m0 :: rest).all fun inst => inst.length == L) = true := by
    simp only [List.all_eq_true, beq_iff_eq]
    exact hlen
  rw [if_pos hcond2]

/-- C6: for a non-empty list of N equal-length instances over the four
bases, the built count matrix has, at every position, four per-base
counts summing to N: every instance contributes exactly one increment at
each position. -/
theorem count_matrix_column_sums (instances : List (List Char)) (L : Nat)
    (hne : instances ≠ []) (hlen : ∀ w ∈ instances, w.length = L)
    (hbase : ∀ w ∈ instances, ∀ c ∈ w, isBase c) :
    ∃ cm, instances_to_count_matrix instances = some cm ∧
      ∀ i, i < L → colSum cm i = instances.length := by
  rw [instances_to_count_matrix_eq instances L hne hlen]
  obtain ⟨cm, hcm⟩ := buildCount_some L instances (zeroCount L) (zeroCount_shape L)
    hlen hbase
  refine ⟨cm, hcm, fun i hi => ?_⟩
  rw [buildCount_colSum L instances (zeroCount L) cm hcm hlen i hi,
      zeroCount_colSum L i]
  omega

/-- C6 witness: the doctest instances ["ACC", "ATG"]: every column of the
count matrix sums to 2. -/
theorem count_matrix_column_sums_witness :
    ([['A', 'C', 'C'], ['A', 'T', 'G']] : List (List Char)) ≠ [] ∧
    (∀ w ∈ ([['A', 'C', 'C'], ['A', 'T', 'G']] : List (List Char)), w.length = 3) ∧
    (∀ w ∈ ([['A', 'C', 'C'], ['A', 'T', 'G']] : List (List Char)), ∀ c ∈ w, isBase c) ∧
    (∃ cm, instances_to_count_matrix [['A', 'C', 'C'], ['A', 'T', 'G']] = some cm ∧
      ∀ i, i < 3 →
        colSum cm i = List.length ([['A', 'C', 'C'], ['A', 'T', 'G']] : List (List Char))) :=
  ⟨by decide, by decide, by decide,
   count_matrix_column_sums [['A', 'C', 'C'], ['A', 'T', 'G']] 3
     (by decide) (by decide) (by decide)⟩

/-! ### Positivity of the percentage report -/

theorem scoreEach_mem (fm : FreqMatrix) :
    ∀ (l : List (List Char)) (d : List (List Char × ℚ)), scoreEach fm l = some d →
      ∀ p ∈ d, p.1 ∈ l ∧ score_pssm p.1 fm = some p.2 := by
  intro l
  induction l with
  | nil =>
    intro d h p hp
    simp only [scoreEach, Option.some.injEq] at h
    rw [← h] at hp
    simp at hp
  | cons w rest ih =>
    intro d h p hp
    simp only [scoreEach, Option.bind_eq_some, Option.map_eq_some'] at h
    obtain ⟨s, hs, r, hr, hd⟩ := h
    rw [← hd] at hp
    rcases List.mem_cons.mp hp with rfl | htail
    · exact ⟨by simp, by simpa using hs⟩
    · obtain ⟨h1, h2⟩ := ih r hr p htail
      exact ⟨by simp [h1], h2⟩

theorem scoreAux_mul_pos (fm : FreqMatrix) :
    ∀ (s : List Char) (i : Nat) (p : ℚ),
      scoreAux (fun v r => v * r) 1 fm s i = some p →
      (∀ (k : Nat) (hk : k < s.length) (v : ℚ),
        cellAt fm (s.get ⟨k, hk⟩) (i + k) = some v → 0 < v) →
      0 < p := by
  intro s
  induction s with
  | nil =>
    intro i p h _
    simp only [scoreAux, Option.some.injEq] at h
    rw [← h]
    norm_num
  | cons c rest ih =>
    intro i p h hpos
    simp only [scoreAux, Option.bind_eq_some, Option.map_eq_some'] at h
    obtain ⟨v, hv, r, hr, hp⟩ := h
    have hvpos : 0 < v := hpos 0 (by simp) v (by simpa using hv)
    have hrpos : 0 < r := by
      apply ih (i + 1) r hr
      intro k hk v' hv'
      have harith : i + 1 + k = i + (k + 1) := by omega
      have hget : (rest.get ⟨k, hk⟩) = ((c :: rest).get ⟨k + 1, by simpa using hk⟩) := rfl
      rw [harith, hget] at hv'
      exact hpos (k + 1) (by simpa using hk) v' hv'
    rw [← hp]
    exact mul_pos hvpos hrpos

theorem count_to_frequency_eq_some (cm : CountMatrix) (fm : FreqMatrix)
    (h : count_to_frequency_matrix cm = some fm) :
    ∃ n : Nat, n ≠ 0 ∧
      fm.A = cm.A.map (fun k : Nat => (k : ℚ) / (n : ℚ)) ∧
      fm.T = cm.T.map (fun k : Nat => (k : ℚ) / (n : ℚ)) ∧
      fm.C = cm.C.map (fun k : Nat => (k : ℚ) / (n : ℚ)) ∧
      fm.G = cm.G.map (fun k : Nat => (k : ℚ) / (n : ℚ)) := by
  unfold count_to_frequency_matrix at h
  simp only [Option.bind_eq_some] at h
  obtain ⟨a0, hA, t0, hT, c0, hC, g0, hG, h⟩ := h
  split_ifs at h with hz
  simp only [Option.some.injEq] at h
  subst h
  exact ⟨a0 + t0 + c0 + g0, hz, rfl, rfl, rfl, rfl⟩

theorem map_div_get_pos (l : List Nat) (n : Nat) (hn : n ≠ 0) (k : Nat) (v : ℚ)
    (hv : (l.map (fun x : Nat => (x : ℚ) / (n : ℚ))).get? k = some v)
    (hge : 1 ≤ l.getD k 0) : 0 < v := by
  rw [List.get?_eq_getElem?, List.getElem?_map] at hv
  simp only [Option.map_eq_some'] at hv
  obtain ⟨u, hu, rfl⟩ := hv
  have hud : l.getD k 0 = u := by simp [List.getD_eq_getElem?_getD, hu]
  rw [hud] at hge
  have hu0 : (0 : ℚ) < (u : ℚ) := by exact_mod_cast hge
  have hn0 : (0 : ℚ) < (n : ℚ) := by exact_mod_cast Nat.pos_of_ne_zero hn
  exact div_pos hu0 hn0

/-- C10: for a non-empty list of equal-length motifs over the four bases,
every score in `get_motifs_percentage` is strictly positive: the matrix is
trained on the motifs themselves, so each motif's own base has count at
least 1 (hence frequency at least 1/N) at every position, and the product
of positive frequencies is positive. -/
theorem get_motifs_percentage_pos (motifs : List (List Char)) (L : Nat)
    (hne : motifs ≠ []) (hlen : ∀ w ∈ motifs, w.length = L)
    (hbase : ∀ w ∈ motifs, ∀ c ∈ w, isBase c) :
    ∀ d, get_motifs_percentage motifs = some d → ∀ p ∈ d, 0 < p.2 := by
  intro d hd p hp
  simp only [get_motifs_percentage, Option.bind_eq_some] at hd
  obtain ⟨fm, hfm, hse⟩ := hd
  simp only [get_frequency_matrix, Option.bind_eq_some] at hfm
  obtain ⟨cm, hcm, hc2f⟩ := hfm
  obtain ⟨hw_mem, hscore⟩ := scoreEach_mem fm motifs d hse p hp
  rw [instances_to_count_matrix_eq motifs L hne hlen] at hcm
  have hhit := buildCount_hit motifs (zeroCount L) cm hcm p.1 hw_mem
  obtain ⟨n, hn0, hfA, hfT, hfC, hfG⟩ := count_to_frequency_eq_some cm fm hc2f
  apply scoreAux_mul_pos fm p.1 0 p.2 hscore
  intro k hk v hv
  have hch : isBase (p.1.get ⟨k, hk⟩) := hbase p.1 hw_mem _ (List.get_mem p.1 k hk)
  have hcell : 1 ≤ cellCount cm (p.1.get ⟨k, hk⟩) k := hhit k hk
  rw [Nat.zero_add] at hv
  rcases hch with he | he | he | he
  · rw [he] at hv hcell
    rw [cellAt, row_A, hfA] at hv
    simp only [Option.some_bind] at hv
    rw [cellCount_A] at hcell
    exact map_div_get_pos cm.A n hn0 k v hv hcell
  · rw [he] at hv hcell
    rw [cellAt, row_T, hfT] at hv
    simp only [Option.some_bind] at hv
    rw [cellCount_T] at hcell
    exact map_div_get_pos cm.T n hn0 k v hv hcell
  · rw [he] at hv hcell
    rw [cellAt, row_C, hfC] at hv
    simp only [Option.some_bind] at hv
    rw [cellCount_C] at hcell
    exact map_div_get_pos cm.C n hn0 k v hv hcell
  · rw [he] at hv hcell
    rw [cellAt, row_G, hfG] at hv
    simp only [Option.some_bind] at hv
    rw [cellCount_G] at hcell
    exact map_div_get_pos cm.G n hn0 k v hv hcell

/-- C10 witness: the single motif "A": its percentage score is 1 > 0. -/
theorem get_motifs_percentage_pos_witness :
    ([['A']] : List (List Char)) ≠ [] ∧
    (∀ w ∈ ([['A']] : List (List Char)), w.length = 1) ∧
    (∀ w ∈ ([['A']] : List (List Char)), ∀ c ∈ w, isBase c) ∧
    get_motifs_percentage [['A']] = some [(['A'], 1)] ∧
    (∀ p ∈ [((['A'] : List Char), (1 : ℚ))], 0 < p.2) :=
  ⟨by decide, by decide, by decide,
   by norm_num [get_motifs_percentage, get_frequency_matrix, instances_to_count_matrix,
     buildCount, addInstance, addChar, bumpAt, zeroCount, count_to_frequency_matrix,
     scoreEach, score_pssm, scoreAux, cellAt, row],
   get_motifs_percentage_pos [['A']] 1 (by decide) (by decide) (by decide)
     [(['A'], 1)]
     (by norm_num [get_motifs_percentage, get_frequency_matrix, instances_to_count_matrix,
       buildCount, addInstance, addChar, bumpAt, zeroCount, count_to_frequency_matrix,
       scoreEach, score_pssm, scoreAux, cellAt, row])⟩

/-! ### The log transform round trip -/

theorem mapCells_logCell (l : List ℝ) (h : ∀ x ∈ l, 0 < x) :
    mapCells logCell l = some (l.map (fun x => -Real.log x)) ∧
    (l.map (fun x => -Real.log x)).map (fun x => Real.exp (-x)) = l := by
  induction l with
  | nil => simp [mapCells]
  | cons x rest ih =>
    have hx : 0 < x := h x (by simp)
    obtain ⟨ih1, ih2⟩ := ih (fun y hy => h y (by simp [hy]))
    constructor
    · simp [mapCells, logCell, hx, ih1]
    · simp only [List.map_cons] at ih2 ⊢
      simp [neg_neg, Real.exp_log hx, ih2]

/-- C8: on a matrix with all cells strictly positive, `freq_to_log_matrix`
succeeds and mapping each output cell x to exp(-x) restores the original
matrix exactly (in real arithmetic): exp(-(-log x)) = x for x > 0. -/
theorem freq_to_log_round_trip (m : BaseMatrix ℝ)
    (hpos : ∀ r ∈ [m.A, m.T, m.C, m.G], ∀ x ∈ r, 0 < x) :
    ∃ lm, freq_to_log_matrix m = some lm ∧
      mapMatrix (fun x => Real.exp (-x)) lm = m := by
  obtain ⟨a1, a2⟩ := mapCells_logCell m.A (hpos m.A (by simp))
  obtain ⟨t1, t2⟩ := mapCells_logCell m.T (hpos m.T (by simp))
  obtain ⟨c1, c2⟩ := mapCells_logCell m.C (hpos m.C (by simp))
  obtain ⟨g1, g2⟩ := mapCells_logCell m.G (hpos m.G (by simp))
  refine ⟨mapMatrix (fun x => -Real.log x) m, ?_, ?_⟩
  · simp [freq_to_log_matrix, mapMatrix, a1, t1, c1, g1]
  · cases m with
    | mk A T C G => simp_all [mapMatrix]

/-- C8 witness: the all-ones matrix: its log matrix is all zeros and
exponentiating the negations restores the ones. -/
theorem freq_to_log_round_trip_witness :
    (∀ r ∈ [([(1 : ℝ)] : List ℝ), [1], [1], [1]], ∀ x ∈ r, 0 < x) ∧
    (∃ lm, freq_to_log_matrix ⟨[(1 : ℝ)], [1], [1], [1]⟩ = some lm ∧
      mapMatrix (fun x => Real.exp (-x)) lm = ⟨[(1 : ℝ)], [1], [1], [1]⟩) :=
  ⟨by norm_num,
   freq_to_log_round_trip ⟨[(1 : ℝ)], [1], [1], [1]⟩ (by norm_num)⟩
